import Mathlib

/-!
Verification development for the osmosdr source block
(`src/lib/osmosdr/osmosdr_src_c.cc`): a shallow embedding of the
producer/consumer ring buffer (`osmosdr_callback` / `work`), the
sample-conversion arithmetic, and the multi-stage IF gain allocation
loop of `set_if_gain`, together with theorems settling the frozen
claims about this code.

Machine integers are modelled as `Nat`/`Int` (the values involved stay
far below any wrap-around point on the exercised paths) and the
floating-point gain/sample arithmetic is modelled in exact rational
arithmetic, which is exact on every value the code manipulates here
(all gain range endpoints and steps are integers).
-/

/-- BUF_LEN constant from the source: 16 * 32 * 512 bytes per slot. -/
def BUF_LEN : ℕ := 16 * 32 * 512

/-- BUF_NUM constant from the source: 15 slots. -/
def BUF_NUM : ℕ := 15

/-- BUF_SKIP constant from the source: one warm-up callback is discarded. -/
def BUF_SKIP : ℕ := 1

/-- BYTES_PER_SAMPLE constant from the source: 16-bit signed I and Q. -/
def BYTES_PER_SAMPLE : ℕ := 4

/-- State of the `osmosdr_src_c` block: the ring-buffer bookkeeping
fields, the puller cursor, the running flag, the warm-up counter and
the slot contents.  `slots k j` is the 16-bit value at short offset
`j` of slot `k` (slot memory modelled as a total function). -/
structure SrcState where
  buf_num : ℕ
  buf_len : ℕ
  buf_head : ℕ
  buf_used : ℕ
  buf_offset : ℤ
  samp_avail : ℤ
  running : Bool
  skipped : ℕ
  slots : ℕ → ℤ → ℤ

/-- Effective slot count: the constructor replaces 0 by BUF_NUM. -/
def actualNum (n : ℕ) : ℕ := if n = 0 then BUF_NUM else n

/-- Effective slot byte size: the constructor replaces 0 or a
non-multiple of 512 by BUF_LEN. -/
def actualLen (l : ℕ) : ℕ := if l = 0 ∨ l % 512 ≠ 0 then BUF_LEN else l

/-- State right after the constructor ran: empty ring, cursor at the
start of a slot, `_samp_avail = _buf_len / BYTES_PER_SAMPLE`, running,
no callback yet skipped.  `mem` is the (indeterminate) content of the
freshly malloc'd slot memory. -/
def initState (n l : ℕ) (mem : ℕ → ℤ → ℤ) : SrcState :=
  { buf_num := actualNum n
    buf_len := actualLen l
    buf_head := 0
    buf_used := 0
    buf_offset := 0
    samp_avail := ((actualLen l / BYTES_PER_SAMPLE : ℕ) : ℤ)
    running := true
    skipped := 0
    slots := mem }

/-- State after the warm-up callback has been discarded. -/
def readyState (n l : ℕ) (mem : ℕ → ℤ → ℤ) : SrcState :=
  { initState n l mem with skipped := BUF_SKIP }

/-- The ingestion callback `osmosdr_callback(buf, len)`: discard the
first BUF_SKIP calls, otherwise copy `len` bytes into the slot at
`(_buf_head + _buf_used) % _buf_num` and publish it — incrementing
`_buf_used`, or, when the ring is full, advancing `_buf_head` and
reporting an overflow (the returned Bool, the "O" diagnostic print).
`data j` is the incoming short at offset `j`; a short is copied when
both of its bytes lie below `len`. -/
def osmosdr_callback (s : SrcState) (data : ℤ → ℤ) (len : ℕ) :
    SrcState × Bool :=
  if s.skipped < BUF_SKIP then
    ({ s with skipped := s.skipped + 1 }, false)
  else
    let tail := (s.buf_head + s.buf_used) % s.buf_num
    let slots' : ℕ → ℤ → ℤ := fun k j =>
      if k = tail ∧ 0 ≤ j ∧ 2 * j + 2 ≤ (len : ℤ) then data j else s.slots k j
    if s.buf_used = s.buf_num then
      ({ s with slots := slots', buf_head := (s.buf_head + 1) % s.buf_num }, true)
    else
      ({ s with slots := slots', buf_used := s.buf_used + 1 }, false)

/-- A sequence of normal-length ingestion callbacks (the driver always
delivers exactly `_buf_len` bytes). -/
def pubSeq (s : SrcState) (ps : List (ℤ → ℤ)) : SrcState :=
  ps.foldl (fun st p => (osmosdr_callback st p st.buf_len).1) s

/-- Conversion of one raw 16-bit value: `float(v) * (1.0f/32767.5f)`,
modelled exactly over ℚ. -/
def normSample (v : ℤ) : ℚ := (v : ℚ) * (1 / 32767.5)

/-- The complex sample produced for loop index `i` when reading slot
`slot` starting at short offset `base`: the code reads
`*(buf + i*2 + 0)` and `*(buf + i*2 + 1)`. -/
def cplxAt (s : SrcState) (slot : ℕ) (base : ℤ) (i : ℕ) : ℚ × ℚ :=
  (normSample (s.slots slot (base + (i : ℤ) * 2)),
   normSample (s.slots slot (base + (i : ℤ) * 2 + 1)))

/-- Result of one `work` call: `blocked` when the condition-variable
loop `while (_buf_used < 3 && _running)` would suspend the caller,
`workDone` for the end-of-stream return `WORK_DONE`, and otherwise the
produced samples, whether the lock-protected release-oldest-slot path
ran, and the successor state. -/
inductive WorkResult where
  | blocked : WorkResult
  | workDone : WorkResult
  | output : List (ℚ × ℚ) → Bool → SrcState → WorkResult

/-- The `work` function: wait for at least 3 filled slots (or stream
end), return WORK_DONE when not running, then either serve the request
entirely from the current slot or cross into the next slot, releasing
the exhausted one. -/
def work (s : SrcState) (noutput : ℕ) : WorkResult :=
  if s.buf_used < 3 ∧ s.running = true then WorkResult.blocked
  else if s.running = false then WorkResult.workDone
  else if (noutput : ℤ) ≤ s.samp_avail then
    WorkResult.output
      ((List.range noutput).map (cplxAt s s.buf_head s.buf_offset)) false
      { s with buf_offset := s.buf_offset + (noutput : ℤ) * 2
               samp_avail := s.samp_avail - (noutput : ℤ) }
  else
    WorkResult.output
      ((List.range s.samp_avail.toNat).map (cplxAt s s.buf_head s.buf_offset) ++
       (List.range ((noutput : ℤ) - s.samp_avail).toNat).map
         (cplxAt s ((s.buf_head + 1) % s.buf_num) 0)) true
      { s with buf_head := (s.buf_head + 1) % s.buf_num
               buf_used := s.buf_used - 1
               buf_offset := ((noutput : ℤ) - s.samp_avail) * 2
               samp_avail := ((s.buf_len / BYTES_PER_SAMPLE : ℕ) : ℤ) -
                 ((noutput : ℤ) - s.samp_avail) }

/-- The sample the stream holds at distance `j` from the current
cursor: inside the current slot while `j` is below `_samp_avail`,
afterwards in the following slot. -/
def streamAt (s : SrcState) (j : ℕ) : ℚ × ℚ :=
  if (j : ℤ) < s.samp_avail then cplxAt s s.buf_head s.buf_offset j
  else cplxAt s ((s.buf_head + 1) % s.buf_num) 0 (j - s.samp_avail.toNat)

/-- Cursor coherence: `_buf_offset` (a short offset) always mirrors
how many of the slot's `_buf_len / BYTES_PER_SAMPLE` samples have been
consumed. -/
def cursorInv (s : SrcState) : Prop :=
  s.buf_offset = 2 * (((s.buf_len / BYTES_PER_SAMPLE : ℕ) : ℤ) - s.samp_avail)

/-- Sample index of the next unconsumed pair inside the current slot
(the spec's `sampleOffsetInSlot`): `_buf_offset` counts shorts, two
per sample. -/
def sampleOffsetInSlot (s : SrcState) : ℤ := s.buf_offset / 2

/-- Absolute value as computed by the code's `abs(gain - sum)`,
written out explicitly over ℚ. -/
def qabs (q : ℚ) : ℚ := if q < 0 then -q else q

/-- The six hardcoded IF gain stages of `set_if_gain`, each as
(start, stop, step). -/
def if_gains : List (ℚ × ℚ × ℚ) :=
  [(-3, 6, 9), (0, 9, 3), (0, 9, 3), (0, 2, 1), (3, 15, 3), (3, 15, 3)]

/-- Candidate scan loop `for (g = start; g <= stop; g += step)`,
written with a structural iteration bound: every range hardcoded in
`set_if_gain` runs for at most 5 iterations, far below the bound, so
this is exactly the loop's trace (in exact arithmetic, which agrees
with the double arithmetic of the source on these integer-valued
ranges). -/
def candListAux : ℕ → ℚ → ℚ → ℚ → List ℚ
  | 0, _, _, _ => []
  | fuel + 1, g, hi, st => if g ≤ hi then g :: candListAux fuel (g + st) hi st else []

/-- Candidate values of one gain range, from its start to its stop in
increments of its step. -/
def candList (lo hi st : ℚ) : List ℚ := candListAux 32 lo hi st

/-- The inner candidate scan: running (error, chosen) pair, a candidate
is adopted exactly when its error is strictly below the running error. -/
def pickBest (f : ℚ → ℚ) (l : List ℚ) (e g : ℚ) : ℚ × ℚ :=
  l.foldl (fun eg c => if f c < eg.1 then (f c, c) else eg) (e, g)

/-- One iteration of the outer stage loop of `set_if_gain` for stage
index `i` (0-based into `if_gains`): scan stage `i`'s candidates,
comparing `abs(gain - sum)` where the sum substitutes the candidate at
position `i` and keeps every other stage's current allocation, with
the running error initialized to `gain` itself. -/
def stageStep (t : ℚ) (gains : List ℚ) (i : ℕ) : List ℚ :=
  match if_gains.get? i with
  | some r =>
      gains.set i
        (pickBest (fun c => qabs (t - (gains.set i c).sum))
          (candList r.1 r.2.1 r.2.2) t (gains.getD i 0)).2
  | none => gains

/-- The whole allocation pass of `set_if_gain`: initialize every stage
to its minimum, then walk the stages backwards (`i = size-1 .. 0`). -/
def allocateIfGains (t : ℚ) : List ℚ :=
  ((List.range if_gains.length).reverse).foldl (stageStep t)
    (if_gains.map (fun r => r.1))

/-- Truncation toward zero, as C's `int(double)` conversion. -/
def truncInt (q : ℚ) : ℤ := if q < 0 then -(Rat.floor (-q)) else Rat.floor q

/-- The gain-related state of the block: the `_if_gain` field and the
stage values last pushed to the device (in tenths, as the code sends
`int(gains[stage] * 10.0)`). -/
structure GainState where
  if_gain : ℚ
  pushed : List ℤ

/-- The `set_if_gain` member: run the allocator, push each stage to
the device, store the requested value in `_if_gain` and return it. -/
def set_if_gain (_st : GainState) (gain : ℚ) : GainState × ℚ :=
  let gains := allocateIfGains gain
  ({ if_gain := gain, pushed := gains.map (fun g => truncInt (g * 10)) }, gain)

/-- The `get_gain("IF")` member: returns the stored `_if_gain`. -/
def get_gain_IF (st : GainState) : ℚ := st.if_gain

/-- Sum of the stage minimums. -/
def minSum : ℚ := (if_gains.map (fun r => r.1)).sum

/-- Sum of the stage maximums. -/
def maxSum : ℚ := (if_gains.map (fun r => r.2.1)).sum

/-- All stages at their minimum: the allocator's initialisation. -/
def minsList : List ℚ := [-3, 0, 0, 0, 3, 3]

/-- Allocation after the backward pass processed stage index 5 for a
target above every reachable sum. -/
def maxA5 : List ℚ := [-3, 0, 0, 0, 3, 15]

/-- Allocation after processing stage indices 5 and 4 likewise. -/
def maxA4 : List ℚ := [-3, 0, 0, 0, 15, 15]

/-- Allocation after processing stage indices 5, 4 and 3 likewise. -/
def maxA3 : List ℚ := [-3, 0, 0, 2, 15, 15]

/-- Allocation after processing stage indices 5 down to 2 likewise. -/
def maxA2 : List ℚ := [-3, 0, 9, 2, 15, 15]

/-- Allocation after processing stage indices 5 down to 1 likewise. -/
def maxA1 : List ℚ := [-3, 9, 9, 2, 15, 15]

/-- All stages at their maximum. -/
def maxsList : List ℚ := [6, 9, 9, 2, 15, 15]

/-- Ring-buffer invariant after a sequence `ps` of published payloads,
starting from the empty post-warm-up state: `used` is capped by the
slot count, `head` is the slot that received the oldest payload not
yet dropped, and the retained slots hold, in ring order starting at
`head`, exactly the last `used` payloads (on the copied byte window). -/
def RingInv (N L : ℕ) (ps : List (ℤ → ℤ)) (s : SrcState) : Prop :=
  s.buf_num = N ∧ s.buf_len = L ∧ s.skipped = BUF_SKIP ∧
  s.buf_used = min ps.length N ∧
  s.buf_head = (ps.length - s.buf_used) % N ∧
  ∀ i < s.buf_used, ∀ j : ℤ, 0 ≤ j → 2 * j + 2 ≤ (L : ℤ) →
    s.slots ((s.buf_head + i) % N) j =
      ps.getD (ps.length - s.buf_used + i) (fun _ => 0) j

/-- All-zero slot memory, for concrete instances. -/
def zmem : ℕ → ℤ → ℤ := fun _ _ => 0

/-- Constant payload, for concrete publish sequences. -/
def wpay (v : ℤ) : ℤ → ℤ := fun _ => v

/-- Concrete publish sequence: four payloads into a 3-slot ring. -/
def c2ps : List (ℤ → ℤ) := [wpay 5, wpay 6, wpay 7, wpay 8]

/-- Concrete state for the pull(70000) boundary-crossing example:
default geometry, 3 filled slots, fresh cursor, running. -/
def c1State : SrcState := ⟨15, 262144, 0, 3, 0, 65536, true, 1, zmem⟩

/-- Same situation but with only two filled slots. -/
def c1CexState : SrcState := ⟨15, 262144, 0, 2, 0, 65536, true, 1, zmem⟩

/-- Stopped stream with five filled slots still buffered. -/
def c3CexState : SrcState := ⟨15, 262144, 0, 5, 0, 65536, false, 1, zmem⟩

/-- Stopped stream with an empty ring. -/
def c3WitState : SrcState := ⟨15, 262144, 0, 0, 0, 65536, false, 1, zmem⟩

/-- Post-warm-up state with an empty ring, about to ingest. -/
def c5CexState : SrcState := ⟨15, 262144, 0, 0, 0, 65536, true, 1, zmem⟩

/-- Post-warm-up state with a full ring, about to overflow. -/
def c5WitState : SrcState := ⟨15, 262144, 0, 15, 0, 65536, true, 1, zmem⟩

/-- Running state with three filled slots and a fresh cursor. -/
def c7WitState : SrcState := ⟨15, 262144, 0, 3, 0, 65536, true, 1, zmem⟩

/-- Running state mid-slot: head 2, four filled slots, cursor 5
samples (10 shorts) into the slot. -/
def c8WitState : SrcState := ⟨15, 262144, 2, 4, 10, 65531, true, 1, zmem⟩

/-! Helper lemmas about the candidate scan. -/

lemma qabs_nonneg (q : ℚ) : 0 ≤ qabs q := by
  unfold qabs; split <;> linarith

lemma qabs_of_neg {q : ℚ} (h : q < 0) : qabs q = -q := by
  unfold qabs; exact if_pos h

lemma qabs_of_nonneg {q : ℚ} (h : 0 ≤ q) : qabs q = q := by
  unfold qabs; exact if_neg (not_lt.mpr h)

lemma pickBest_cons (f : ℚ → ℚ) (c : ℚ) (l : List ℚ) (e g : ℚ) :
    pickBest f (c :: l) e g =
      if f c < e then pickBest f l (f c) c else pickBest f l e g := by
  by_cases h : f c < e <;> simp [pickBest, List.foldl_cons, h]

lemma pickBest_no_improve (f : ℚ → ℚ) :
    ∀ (l : List ℚ) (e g : ℚ), (∀ c ∈ l, e ≤ f c) → pickBest f l e g = (e, g) := by
  intro l
  induction l with
  | nil => intro e g _; rfl
  | cons c l ih =>
    intro e g h
    rw [pickBest_cons, if_neg (not_lt.mpr (h c (List.mem_cons_self c l)))]
    exact ih e g (fun x hx => h x (List.mem_cons_of_mem c hx))

lemma pickBest_head (f : ℚ → ℚ) (l : List ℚ) (e v : ℚ)
    (h : ∀ c ∈ l, f v ≤ f c) : (pickBest f (v :: l) e v).2 = v := by
  rw [pickBest_cons]
  by_cases hv : f v < e
  · rw [if_pos hv, pickBest_no_improve f l (f v) v h]
  · rw [if_neg hv,
      pickBest_no_improve f l e v (fun c hc => le_trans (not_lt.mp hv) (h c hc))]

lemma pickBest_reach (f : ℚ → ℚ) (w : ℚ) :
    ∀ (l : List ℚ) (e g : ℚ), w ∈ l → f w < e →
      (∀ c ∈ l, c ≠ w → f w < f c) → (pickBest f l e g).2 = w := by
  intro l
  induction l with
  | nil => intro e g hw; exact absurd hw (List.not_mem_nil w)
  | cons c l ih =>
    intro e g hw hfe hmin
    rw [pickBest_cons]
    by_cases hcw : c = w
    · subst hcw
      rw [if_pos hfe]
      rw [pickBest_no_improve f l (f c) c ?hrest]
      case hrest =>
        intro x hx
        by_cases hxc : x = c
        · subst hxc; exact le_refl _
        · exact le_of_lt (hmin x (List.mem_cons_of_mem c hx) hxc)
    · have hw' : w ∈ l := by
        rcases List.mem_cons.mp hw with h1 | h1
        · exact absurd h1.symm hcw
        · exact h1
      have hrest : ∀ x ∈ l, x ≠ w → f w < f x :=
        fun x hx hxw => hmin x (List.mem_cons_of_mem c hx) hxw
      by_cases hce : f c < e
      · exact if_pos hce ▸ ih (f c) c hw' (hmin c (List.mem_cons_self c l) hcw) hrest
      · exact if_neg hce ▸ ih e g hw' hfe hrest

lemma candList_a : candList (-3) 6 9 = [-3, 6] := by
  norm_num [candList, candListAux]

lemma candList_b : candList 0 9 3 = [0, 3, 6, 9] := by
  norm_num [candList, candListAux]

lemma candList_c : candList 0 2 1 = [0, 1, 2] := by
  norm_num [candList, candListAux]

lemma candList_d : candList 3 15 3 = [3, 6, 9, 12, 15] := by
  norm_num [candList, candListAux]

lemma alloc_eq_steps (t : ℚ) : allocateIfGains t =
    stageStep t (stageStep t (stageStep t (stageStep t (stageStep t
      (stageStep t minsList 5) 4) 3) 2) 1) 0 := rfl

/-! Stage-by-stage behaviour of the backward gain pass for extreme targets. -/

lemma sumSet5_mins : ∀ c : ℚ, (minsList.set 5 c).sum = c := by
  intro c
  show List.sum [(-3 : ℚ), 0, 0, 0, 3, c] = c
  simp only [List.sum_cons, List.sum_nil]
  linarith

lemma sumSet4_mins : ∀ c : ℚ, (minsList.set 4 c).sum = c := by
  intro c
  show List.sum [(-3 : ℚ), 0, 0, 0, c, 3] = c
  simp only [List.sum_cons, List.sum_nil]
  linarith

lemma sumSet3_mins : ∀ c : ℚ, (minsList.set 3 c).sum = 3 + c := by
  intro c
  show List.sum [(-3 : ℚ), 0, 0, c, 3, 3] = 3 + c
  simp only [List.sum_cons, List.sum_nil]
  linarith

lemma sumSet2_mins : ∀ c : ℚ, (minsList.set 2 c).sum = 3 + c := by
  intro c
  show List.sum [(-3 : ℚ), 0, c, 0, 3, 3] = 3 + c
  simp only [List.sum_cons, List.sum_nil]
  linarith

lemma sumSet1_mins : ∀ c : ℚ, (minsList.set 1 c).sum = 3 + c := by
  intro c
  show List.sum [(-3 : ℚ), c, 0, 0, 3, 3] = 3 + c
  simp only [List.sum_cons, List.sum_nil]
  linarith

lemma sumSet0_mins : ∀ c : ℚ, (minsList.set 0 c).sum = c + 6 := by
  intro c
  show List.sum [c, (0 : ℚ), 0, 0, 3, 3] = c + 6
  simp only [List.sum_cons, List.sum_nil]
  linarith

lemma stageMin5 (t : ℚ) (ht : t < 3) : stageStep t minsList 5 = minsList := by
  have e : stageStep t minsList 5 =
      minsList.set 5 (pickBest (fun c => qabs (t - (minsList.set 5 c).sum))
        (candList 3 15 3) t 3).2 := rfl
  rw [e, candList_d]
  simp only [sumSet5_mins]
  have prem : ∀ c ∈ ([6, 9, 12, 15] : List ℚ), qabs (t - 3) ≤ qabs (t - c) := by
    intro c hc
    fin_cases hc <;>
      rw [qabs_of_neg (by linarith), qabs_of_neg (by linarith)] <;> linarith
  rw [pickBest_head (fun c => qabs (t - c)) [6, 9, 12, 15] t 3 prem]
  rfl

lemma stageMin4 (t : ℚ) (ht : t < 3) : stageStep t minsList 4 = minsList := by
  have e : stageStep t minsList 4 =
      minsList.set 4 (pickBest (fun c => qabs (t - (minsList.set 4 c).sum))
        (candList 3 15 3) t 3).2 := rfl
  rw [e, candList_d]
  simp only [sumSet4_mins]
  have prem : ∀ c ∈ ([6, 9, 12, 15] : List ℚ), qabs (t - 3) ≤ qabs (t - c) := by
    intro c hc
    fin_cases hc <;>
      rw [qabs_of_neg (by linarith), qabs_of_neg (by linarith)] <;> linarith
  rw [pickBest_head (fun c => qabs (t - c)) [6, 9, 12, 15] t 3 prem]
  rfl

lemma stageMin3 (t : ℚ) (ht : t < 3) : stageStep t minsList 3 = minsList := by
  have e : stageStep t minsList 3 =
      minsList.set 3 (pickBest (fun c => qabs (t - (minsList.set 3 c).sum))
        (candList 0 2 1) t 0).2 := rfl
  rw [e, candList_c]
  simp only [sumSet3_mins]
  have prem : ∀ c ∈ ([1, 2] : List ℚ), qabs (t - (3 + 0)) ≤ qabs (t - (3 + c)) := by
    intro c hc
    fin_cases hc <;>
      rw [qabs_of_neg (by linarith), qabs_of_neg (by linarith)] <;> linarith
  rw [pickBest_head (fun c => qabs (t - (3 + c))) [1, 2] t 0 prem]
  rfl

lemma stageMin2 (t : ℚ) (ht : t < 3) : stageStep t minsList 2 = minsList := by
  have e : stageStep t minsList 2 =
      minsList.set 2 (pickBest (fun c => qabs (t - (minsList.set 2 c).sum))
        (candList 0 9 3) t 0).2 := rfl
  rw [e, candList_b]
  simp only [sumSet2_mins]
  have prem : ∀ c ∈ ([3, 6, 9] : List ℚ), qabs (t - (3 + 0)) ≤ qabs (t - (3 + c)) := by
    intro c hc
    fin_cases hc <;>
      rw [qabs_of_neg (by linarith), qabs_of_neg (by linarith)] <;> linarith
  rw [pickBest_head (fun c => qabs (t - (3 + c))) [3, 6, 9] t 0 prem]
  rfl

lemma stageMin1 (t : ℚ) (ht : t < 3) : stageStep t minsList 1 = minsList := by
  have e : stageStep t minsList 1 =
      minsList.set 1 (pickBest (fun c => qabs (t - (minsList.set 1 c).sum))
        (candList 0 9 3) t 0).2 := rfl
  rw [e, candList_b]
  simp only [sumSet1_mins]
  have prem : ∀ c ∈ ([3, 6, 9] : List ℚ), qabs (t - (3 + 0)) ≤ qabs (t - (3 + c)) := by
    intro c hc
    fin_cases hc <;>
      rw [qabs_of_neg (by linarith), qabs_of_neg (by linarith)] <;> linarith
  rw [pickBest_head (fun c => qabs (t - (3 + c))) [3, 6, 9] t 0 prem]
  rfl

lemma stageMin0 (t : ℚ) (ht : t < 3) : stageStep t minsList 0 = minsList := by
  have e : stageStep t minsList 0 =
      minsList.set 0 (pickBest (fun c => qabs (t - (minsList.set 0 c).sum))
        (candList (-3) 6 9) t (-3)).2 := rfl
  rw [e, candList_a]
  simp only [sumSet0_mins]
  have prem : ∀ c ∈ ([6] : List ℚ), qabs (t - ((-3) + 6)) ≤ qabs (t - (c + 6)) := by
    intro c hc
    fin_cases hc <;>
      rw [qabs_of_neg (by linarith), qabs_of_neg (by linarith)] <;> linarith
  rw [pickBest_head (fun c => qabs (t - (c + 6))) [6] t (-3) prem]
  rfl

lemma alloc_min_of_lt (t : ℚ) (ht : t < 3) : allocateIfGains t = minsList := by
  rw [alloc_eq_steps, stageMin5 t ht, stageMin4 t ht, stageMin3 t ht,
    stageMin2 t ht, stageMin1 t ht, stageMin0 t ht]

lemma sumSet4_a5 : ∀ c : ℚ, (maxA5.set 4 c).sum = 12 + c := by
  intro c
  show List.sum [(-3 : ℚ), 0, 0, 0, c, 15] = 12 + c
  simp only [List.sum_cons, List.sum_nil]
  linarith

lemma sumSet3_a4 : ∀ c : ℚ, (maxA4.set 3 c).sum = 27 + c := by
  intro c
  show List.sum [(-3 : ℚ), 0, 0, c, 15, 15] = 27 + c
  simp only [List.sum_cons, List.sum_nil]
  linarith

lemma sumSet2_a3 : ∀ c : ℚ, (maxA3.set 2 c).sum = 29 + c := by
  intro c
  show List.sum [(-3 : ℚ), 0, c, 2, 15, 15] = 29 + c
  simp only [List.sum_cons, List.sum_nil]
  linarith

lemma sumSet1_a2 : ∀ c : ℚ, (maxA2.set 1 c).sum = 38 + c := by
  intro c
  show List.sum [(-3 : ℚ), c, 9, 2, 15, 15] = 38 + c
  simp only [List.sum_cons, List.sum_nil]
  linarith

lemma sumSet0_a1 : ∀ c : ℚ, (maxA1.set 0 c).sum = 50 + c := by
  intro c
  show List.sum [c, (9 : ℚ), 9, 2, 15, 15] = 50 + c
  simp only [List.sum_cons, List.sum_nil]
  linarith

lemma stageMax5 (t : ℚ) (ht : 56 < t) : stageStep t minsList 5 = maxA5 := by
  have e : stageStep t minsList 5 =
      minsList.set 5 (pickBest (fun c => qabs (t - (minsList.set 5 c).sum))
        (candList 3 15 3) t 3).2 := rfl
  rw [e, candList_d]
  simp only [sumSet5_mins]
  have hfe : qabs (t - 15) < t := by
    rw [qabs_of_nonneg (by linarith)]; linarith
  have hmin : ∀ c ∈ ([3, 6, 9, 12, 15] : List ℚ), c ≠ 15 →
      qabs (t - 15) < qabs (t - c) := by
    intro c hc hne
    fin_cases hc
    · rw [qabs_of_nonneg (by linarith), qabs_of_nonneg (by linarith)]; linarith
    · rw [qabs_of_nonneg (by linarith), qabs_of_nonneg (by linarith)]; linarith
    · rw [qabs_of_nonneg (by linarith), qabs_of_nonneg (by linarith)]; linarith
    · rw [qabs_of_nonneg (by linarith), qabs_of_nonneg (by linarith)]; linarith
    · exact absurd rfl hne
  rw [pickBest_reach (fun c => qabs (t - c)) 15 [3, 6, 9, 12, 15] t 3
    (by norm_num) hfe hmin]
  rfl

lemma stageMax4 (t : ℚ) (ht : 56 < t) : stageStep t maxA5 4 = maxA4 := by
  have e : stageStep t maxA5 4 =
      maxA5.set 4 (pickBest (fun c => qabs (t - (maxA5.set 4 c).sum))
        (candList 3 15 3) t 3).2 := rfl
  rw [e, candList_d]
  simp only [sumSet4_a5]
  have hfe : qabs (t - (12 + 15)) < t := by
    rw [qabs_of_nonneg (by linarith)]; linarith
  have hmin : ∀ c ∈ ([3, 6, 9, 12, 15] : List ℚ), c ≠ 15 →
      qabs (t - (12 + 15)) < qabs (t - (12 + c)) := by
    intro c hc hne
    fin_cases hc
    · rw [qabs_of_nonneg (by linarith), qabs_of_nonneg (by linarith)]; linarith
    · rw [qabs_of_nonneg (by linarith), qabs_of_nonneg (by linarith)]; linarith
    · rw [qabs_of_nonneg (by linarith), qabs_of_nonneg (by linarith)]; linarith
    · rw [qabs_of_nonneg (by linarith), qabs_of_nonneg (by linarith)]; linarith
    · exact absurd rfl hne
  rw [pickBest_reach (fun c => qabs (t - (12 + c))) 15 [3, 6, 9, 12, 15] t 3
    (by norm_num) hfe hmin]
  rfl

lemma stageMax3 (t : ℚ) (ht : 56 < t) : stageStep t maxA4 3 = maxA3 := by
  have e : stageStep t maxA4 3 =
      maxA4.set 3 (pickBest (fun c => qabs (t - (maxA4.set 3 c).sum))
        (candList 0 2 1) t 0).2 := rfl
  rw [e, candList_c]
  simp only [sumSet3_a4]
  have hfe : qabs (t - (27 + 2)) < t := by
    rw [qabs_of_nonneg (by linarith)]; linarith
  have hmin : ∀ c ∈ ([0, 1, 2] : List ℚ), c ≠ 2 →
      qabs (t - (27 + 2)) < qabs (t - (27 + c)) := by
    intro c hc hne
    fin_cases hc
    · rw [qabs_of_nonneg (by linarith), qabs_of_nonneg (by linarith)]; linarith
    · rw [qabs_of_nonneg (by linarith), qabs_of_nonneg (by linarith)]; linarith
    · exact absurd rfl hne
  rw [pickBest_reach (fun c => qabs (t - (27 + c))) 2 [0, 1, 2] t 0
    (by norm_num) hfe hmin]
  rfl

lemma stageMax2 (t : ℚ) (ht : 56 < t) : stageStep t maxA3 2 = maxA2 := by
  have e : stageStep t maxA3 2 =
      maxA3.set 2 (pickBest (fun c => qabs (t - (maxA3.set 2 c).sum))
        (candList 0 9 3) t 0).2 := rfl
  rw [e, candList_b]
  simp only [sumSet2_a3]
  have hfe : qabs (t - (29 + 9)) < t := by
    rw [qabs_of_nonneg (by linarith)]; linarith
  have hmin : ∀ c ∈ ([0, 3, 6, 9] : List ℚ), c ≠ 9 →
      qabs (t - (29 + 9)) < qabs (t - (29 + c)) := by
    intro c hc hne
    fin_cases hc
    · rw [qabs_of_nonneg (by linarith), qabs_of_nonneg (by linarith)]; linarith
    · rw [qabs_of_nonneg (by linarith), qabs_of_nonneg (by linarith)]; linarith
    · rw [qabs_of_nonneg (by linarith), qabs_of_nonneg (by linarith)]; linarith
    · exact absurd rfl hne
  rw [pickBest_reach (fun c => qabs (t - (29 + c))) 9 [0, 3, 6, 9] t 0
    (by norm_num) hfe hmin]
  rfl

lemma stageMax1 (t : ℚ) (ht : 56 < t) : stageStep t maxA2 1 = maxA1 := by
  have e : stageStep t maxA2 1 =
      maxA2.set 1 (pickBest (fun c => qabs (t - (maxA2.set 1 c).sum))
        (candList 0 9 3) t 0).2 := rfl
  rw [e, candList_b]
  simp only [sumSet1_a2]
  have hfe : qabs (t - (38 + 9)) < t := by
    rw [qabs_of_nonneg (by linarith)]; linarith
  have hmin : ∀ c ∈ ([0, 3, 6, 9] : List ℚ), c ≠ 9 →
      qabs (t - (38 + 9)) < qabs (t - (38 + c)) := by
    intro c hc hne
    fin_cases hc
    · rw [qabs_of_nonneg (by linarith), qabs_of_nonneg (by linarith)]; linarith
    · rw [qabs_of_nonneg (by linarith), qabs_of_nonneg (by linarith)]; linarith
    · rw [qabs_of_nonneg (by linarith), qabs_of_nonneg (by linarith)]; linarith
    · exact absurd rfl hne
  rw [pickBest_reach (fun c => qabs (t - (38 + c))) 9 [0, 3, 6, 9] t 0
    (by norm_num) hfe hmin]
  rfl

lemma stageMax0 (t : ℚ) (ht : 56 < t) : stageStep t maxA1 0 = maxsList := by
  have e : stageStep t maxA1 0 =
      maxA1.set 0 (pickBest (fun c => qabs (t - (maxA1.set 0 c).sum))
        (candList (-3) 6 9) t (-3)).2 := rfl
  rw [e, candList_a]
  simp only [sumSet0_a1]
  have hfe : qabs (t - (50 + 6)) < t := by
    rw [qabs_of_nonneg (by linarith)]; linarith
  have hmin : ∀ c ∈ ([-3, 6] : List ℚ), c ≠ 6 →
      qabs (t - (50 + 6)) < qabs (t - (50 + c)) := by
    intro c hc hne
    fin_cases hc
    · rw [qabs_of_nonneg (by linarith), qabs_of_nonneg (by linarith)]; linarith
    · exact absurd rfl hne
  rw [pickBest_reach (fun c => qabs (t - (50 + c))) 6 [-3, 6] t (-3)
    (by norm_num) hfe hmin]
  rfl

lemma alloc_max_of_gt (t : ℚ) (ht : 56 < t) : allocateIfGains t = maxsList := by
  rw [alloc_eq_steps, stageMax5 t ht, stageMax4 t ht, stageMax3 t ht,
    stageMax2 t ht, stageMax1 t ht, stageMax0 t ht]

/-- Claim C6: a target gain strictly below the sum of all stage
minimums makes the allocator return every stage at its minimum, and a
target strictly above the sum of all stage maximums makes it return
every stage at its maximum. -/
theorem claimC6_theorem (t : ℚ) :
    (t < minSum → allocateIfGains t = if_gains.map (fun r => r.1)) ∧
    (maxSum < t → allocateIfGains t = if_gains.map (fun r => r.2.1)) := by
  constructor
  · intro h
    have hm : minSum = 3 := by norm_num [minSum, if_gains]
    rw [hm] at h
    rw [alloc_min_of_lt t h]
    rfl
  · intro h
    have hm : maxSum = 56 := by norm_num [maxSum, if_gains]
    rw [hm] at h
    rw [alloc_max_of_gt t h]
    rfl

/-- Witness for claim C6 at the concrete targets 0 and 100. -/
theorem claimC6_witness :
    allocateIfGains 0 = if_gains.map (fun r => r.1) ∧
    allocateIfGains 100 = if_gains.map (fun r => r.2.1) :=
  ⟨(claimC6_theorem 0).1 (by norm_num [minSum, if_gains]),
   (claimC6_theorem 100).2 (by norm_num [maxSum, if_gains])⟩

/-- Claim C10: a non-positive target gain leaves every one of the six
stages at its minimum (the error bound starts at the target itself and
a candidate is adopted only on a strict improvement, so nothing is
ever adopted), and the resulting allocation sums to 3. -/
theorem claimC10_theorem (t : ℚ) (ht : t ≤ 0) :
    allocateIfGains t = if_gains.map (fun r => r.1) ∧
    (allocateIfGains t).sum = 3 := by
  have h := alloc_min_of_lt t (by linarith)
  refine ⟨by rw [h]; rfl, ?_⟩
  rw [h]
  show List.sum [(-3 : ℚ), 0, 0, 0, 3, 3] = 3
  simp only [List.sum_cons, List.sum_nil]
  linarith

/-- Witness for claim C10 at the concrete target -5. -/
theorem claimC10_witness :
    allocateIfGains (-5) = if_gains.map (fun r => r.1) ∧
    (allocateIfGains (-5)).sum = 3 :=
  claimC10_theorem (-5) (by norm_num)

/-- Counterexample to claim C4: at the requested aggregate gain 10.5,
`set_if_gain` returns 10.5 and the getter reads back 10.5, while the
aggregate actually applied to the device (the sum of the allocated
stage gains) is 10. -/
theorem claimC4_counterexample :
    (set_if_gain ⟨0, []⟩ (21 / 2)).2 = 21 / 2 ∧
    get_gain_IF (set_if_gain ⟨0, []⟩ (21 / 2)).1 = 21 / 2 ∧
    (allocateIfGains (21 / 2)).sum = 10 ∧ (21 / 2 : ℚ) ≠ 10 := by
  refine ⟨rfl, rfl, ?_, by norm_num⟩
  norm_num [allocateIfGains, stageStep, pickBest, candList, candListAux, qabs,
    if_gains, List.range_succ, List.foldl, List.set, List.sum_cons, List.sum_nil]

/-- Claim C4 as amended: `set_if_gain` returns the requested value and
stores it in `_if_gain`, so the aggregate-gain getter reads back the
requested value — not the applied aggregate; the device is sent the
per-stage allocation chosen by the backward pass. -/
theorem claimC4_theorem (st : GainState) (gain : ℚ) :
    (set_if_gain st gain).2 = gain ∧
    get_gain_IF (set_if_gain st gain).1 = gain ∧
    (set_if_gain st gain).1.pushed =
      (allocateIfGains gain).map (fun g => truncInt (g * 10)) :=
  ⟨rfl, rfl, rfl⟩

/-! Lemmas and claims about the puller (`work`). -/

lemma work_fast (s : SrcState) (n : ℕ) (hrun : s.running = true)
    (hused : 3 ≤ s.buf_used) (hle : (n : ℤ) ≤ s.samp_avail) :
    work s n = WorkResult.output
      ((List.range n).map (cplxAt s s.buf_head s.buf_offset)) false
      { s with buf_offset := s.buf_offset + (n : ℤ) * 2
               samp_avail := s.samp_avail - (n : ℤ) } := by
  have h1 : ¬ (s.buf_used < 3 ∧ s.running = true) := by
    rintro ⟨h, -⟩; omega
  have h2 : ¬ s.running = false := by rw [hrun]; exact Bool.noConfusion
  simp only [work]
  rw [if_neg h1, if_neg h2, if_pos hle]

lemma work_cross (s : SrcState) (n : ℕ) (hrun : s.running = true)
    (hused : 3 ≤ s.buf_used) (hlt : s.samp_avail < (n : ℤ)) :
    work s n = WorkResult.output
      ((List.range s.samp_avail.toNat).map (cplxAt s s.buf_head s.buf_offset) ++
       (List.range ((n : ℤ) - s.samp_avail).toNat).map
         (cplxAt s ((s.buf_head + 1) % s.buf_num) 0)) true
      { s with buf_head := (s.buf_head + 1) % s.buf_num
               buf_used := s.buf_used - 1
               buf_offset := ((n : ℤ) - s.samp_avail) * 2
               samp_avail := ((s.buf_len / BYTES_PER_SAMPLE : ℕ) : ℤ) -
                 ((n : ℤ) - s.samp_avail) } := by
  have h1 : ¬ (s.buf_used < 3 ∧ s.running = true) := by
    rintro ⟨h, -⟩; omega
  have h2 : ¬ s.running = false := by rw [hrun]; exact Bool.noConfusion
  have h3 : ¬ ((n : ℤ) ≤ s.samp_avail) := not_le.mpr hlt
  simp only [work]
  rw [if_neg h1, if_neg h2, if_neg h3]

/-- Counterexample to claim C3 as stated: a pull that observes
`running = false` while five filled slots of usable data remain
returns end-of-stream instead of converting buffered samples — the
code checks only `_running`, never `_buf_used`, before WORK_DONE. -/
theorem claimC3_counterexample : work c3CexState 10 = WorkResult.workDone := by
  simp only [work]
  rw [if_neg (by decide), if_pos (by decide)]

/-- Claim C3 as amended: any pull observing `running = false` returns
end-of-stream immediately — in particular with an empty ring it never
blocks (the wait-loop condition `_buf_used < 3 && _running` is already
false), but buffered data does not prevent the end-of-stream return
either. -/
theorem claimC3_theorem (s : SrcState) (n : ℕ) (hrun : s.running = false) :
    work s n = WorkResult.workDone := by
  have h1 : ¬ (s.buf_used < 3 ∧ s.running = true) := by
    rintro ⟨-, h⟩; rw [hrun] at h; exact Bool.noConfusion h
  simp only [work]
  rw [if_neg h1, if_pos hrun]

/-- Witness for claim C3: stopped stream, empty ring, a pull returns
end-of-stream. -/
theorem claimC3_witness : work c3WitState 7 = WorkResult.workDone :=
  claimC3_theorem c3WitState 7 rfl

/-- Claim C8: a pull whose request fits inside the current slot's
remaining samples takes the fast path — the release-oldest flag is
false and the successor state differs from the input only in the two
puller-local cursor fields: head, used, the slot contents and the
running flag are untouched. -/
theorem claimC8_theorem (s : SrcState) (n : ℕ) (hrun : s.running = true)
    (hused : 3 ≤ s.buf_used) (hle : (n : ℤ) ≤ s.samp_avail) :
    work s n = WorkResult.output
      ((List.range n).map (cplxAt s s.buf_head s.buf_offset)) false
      { s with buf_offset := s.buf_offset + (n : ℤ) * 2
               samp_avail := s.samp_avail - (n : ℤ) } ∧
    ({ s with buf_offset := s.buf_offset + (n : ℤ) * 2
              samp_avail := s.samp_avail - (n : ℤ) } : SrcState).buf_head = s.buf_head ∧
    ({ s with buf_offset := s.buf_offset + (n : ℤ) * 2
              samp_avail := s.samp_avail - (n : ℤ) } : SrcState).buf_used = s.buf_used ∧
    ({ s with buf_offset := s.buf_offset + (n : ℤ) * 2
              samp_avail := s.samp_avail - (n : ℤ) } : SrcState).slots = s.slots ∧
    ({ s with buf_offset := s.buf_offset + (n : ℤ) * 2
              samp_avail := s.samp_avail - (n : ℤ) } : SrcState).running = s.running :=
  ⟨work_fast s n hrun hused hle, rfl, rfl, rfl, rfl⟩

/-- Witness for claim C8: a 1000-sample pull against 65531 remaining
samples takes the fast path. -/
theorem claimC8_witness :
    work c8WitState 1000 = WorkResult.output
      ((List.range 1000).map (cplxAt c8WitState c8WitState.buf_head c8WitState.buf_offset)) false
      { c8WitState with buf_offset := c8WitState.buf_offset + ((1000 : ℕ) : ℤ) * 2
                        samp_avail := c8WitState.samp_avail - ((1000 : ℕ) : ℤ) } :=
  (claimC8_theorem c8WitState 1000 rfl (by decide) (by decide)).1

/-- Claim C9: every raw 16-bit value is scaled by exactly
`1/32767.5`, and the extreme raw pair (32767, -32768) lands within
floating tolerance of (0.999985, -1.0000153); the conversion is
modelled in exact rational arithmetic. -/
theorem claimC9_theorem :
    (∀ v : ℤ, normSample v = (v : ℚ) / 32767.5) ∧
    qabs (normSample 32767 - 0.999985) < 1 / 1000000 ∧
    qabs (normSample (-32768) + 1.0000153) < 1 / 10000000 := by
  refine ⟨fun v => ?_, ?_, ?_⟩
  · unfold normSample; ring
  · norm_num [normSample, qabs]
  · norm_num [normSample, qabs]

/-- Counterexample to claim C1 as stated: with only two filled slots
(the claim's "at least two") and an active stream, the pull suspends
on the condition variable — the wait loop requires three filled slots
— so it does not return the requested samples. -/
theorem claimC1_counterexample : work c1CexState 70000 = WorkResult.blocked := by
  simp only [work]
  rw [if_pos (by decide)]

/-- Claim C1 as amended (threshold three filled slots): a crossing
pull returns exactly `n` samples — the stream read in order, first the
remainder of the current slot, then the rest from the following slot —
releases the current slot, and leaves the cursor `n - samp_avail`
samples into the new slot (a valid position when the spill-over fits
one slot). -/
theorem claimC1_theorem (s : SrcState) (n : ℕ) (hrun : s.running = true)
    (hused : 3 ≤ s.buf_used) (h0 : 0 ≤ s.samp_avail) (hlt : s.samp_avail < (n : ℤ))
    (hcap : (n : ℤ) - s.samp_avail ≤ ((s.buf_len / BYTES_PER_SAMPLE : ℕ) : ℤ)) :
    work s n = WorkResult.output ((List.range n).map (streamAt s)) true
      { s with buf_head := (s.buf_head + 1) % s.buf_num
               buf_used := s.buf_used - 1
               buf_offset := ((n : ℤ) - s.samp_avail) * 2
               samp_avail := ((s.buf_len / BYTES_PER_SAMPLE : ℕ) : ℤ) -
                 ((n : ℤ) - s.samp_avail) } ∧
    ((List.range n).map (streamAt s)).length = n ∧
    (∀ j : ℕ, (j : ℤ) < s.samp_avail →
       streamAt s j = cplxAt s s.buf_head s.buf_offset j) ∧
    (∀ j : ℕ, s.samp_avail ≤ (j : ℤ) →
       streamAt s j = cplxAt s ((s.buf_head + 1) % s.buf_num) 0 (j - s.samp_avail.toNat)) ∧
    0 ≤ ((s.buf_len / BYTES_PER_SAMPLE : ℕ) : ℤ) - ((n : ℤ) - s.samp_avail) := by
  refine ⟨?_, by simp, fun j hj => ?_, fun j hj => ?_, by omega⟩
  · have hao : ((n : ℤ) - s.samp_avail).toNat = n - s.samp_avail.toNat := by omega
    have hale : s.samp_avail.toNat ≤ n := by omega
    have hlist : (List.range s.samp_avail.toNat).map (cplxAt s s.buf_head s.buf_offset) ++
        (List.range (n - s.samp_avail.toNat)).map (cplxAt s ((s.buf_head + 1) % s.buf_num) 0) =
        (List.range n).map (streamAt s) := by
      conv_rhs => rw [show n = s.samp_avail.toNat + (n - s.samp_avail.toNat) from
        (Nat.add_sub_cancel' hale).symm]
      rw [List.range_add, List.map_append, List.map_map]
      congr 1
      · apply List.map_congr_left
        intro j hj
        have hjlt : (j : ℤ) < s.samp_avail := by
          have := List.mem_range.mp hj
          omega
        simp only [streamAt, if_pos hjlt]
      · apply List.map_congr_left
        intro i hi
        have hge : ¬ (((s.samp_avail.toNat + i : ℕ) : ℤ) < s.samp_avail) := by
          push_cast
          omega
        simp only [Function.comp_apply, streamAt, if_neg hge]
        congr 1
        omega
    rw [work_cross s n hrun hused hlt, hao, hlist]
  · simp only [streamAt, if_pos hj]
  · simp only [streamAt, if_neg (not_lt.mpr hj)]

/-- Witness for claim C1: the spec's concrete example — default
geometry (65536 samples per slot), three published slots, a fresh
cursor, pull(70000): 70000 samples, and the new cursor offset is 4464
samples (8928 shorts) into the next slot. -/
theorem claimC1_witness :
    work c1State 70000 = WorkResult.output ((List.range 70000).map (streamAt c1State)) true
      { c1State with buf_head := (c1State.buf_head + 1) % c1State.buf_num
                     buf_used := c1State.buf_used - 1
                     buf_offset := (((70000 : ℕ) : ℤ) - c1State.samp_avail) * 2
                     samp_avail := ((c1State.buf_len / BYTES_PER_SAMPLE : ℕ) : ℤ) -
                       (((70000 : ℕ) : ℤ) - c1State.samp_avail) } ∧
    ((List.range 70000).map (streamAt c1State)).length = 70000 ∧
    (((70000 : ℕ) : ℤ) - c1State.samp_avail) * 2 = 4464 * 2 := by
  have h := claimC1_theorem c1State 70000 rfl (by decide) (by decide) (by decide) (by decide)
  exact ⟨h.1, h.2.1, by decide⟩

/-- Claim C7: the cursor invariant `_buf_offset = 2 * (samples
consumed)` — equivalently `sampleOffsetInSlot + samp_avail =
slotBytes / bytesPerSample` — holds initially, is preserved by every
pull that produces output (both the non-crossing and the crossing
branch) and by every ingestion callback, and the offset advances
monotonically while the slot is not released. -/
theorem claimC7_theorem :
    (∀ (n l : ℕ) (mem : ℕ → ℤ → ℤ), cursorInv (initState n l mem)) ∧
    (∀ s : SrcState, cursorInv s →
       sampleOffsetInSlot s + s.samp_avail = ((s.buf_len / BYTES_PER_SAMPLE : ℕ) : ℤ)) ∧
    (∀ (s : SrcState) (m : ℕ) (out : List (ℚ × ℚ)) (rel : Bool) (s2 : SrcState),
       cursorInv s → work s m = WorkResult.output out rel s2 →
       cursorInv s2 ∧ (rel = false → s.buf_offset ≤ s2.buf_offset)) ∧
    (∀ (s : SrcState) (p : ℤ → ℤ) (len : ℕ),
       cursorInv s → cursorInv (osmosdr_callback s p len).1) := by
  refine ⟨fun n l mem => ?_, fun s h => ?_, fun s m out rel s2 h heq => ?_,
    fun s p len h => ?_⟩
  · unfold cursorInv initState
    simp
  · unfold cursorInv at h
    unfold sampleOffsetInSlot
    omega
  · unfold work at heq
    split_ifs at heq with h1 h2 h3
    · cases heq
      unfold cursorInv at h ⊢
      refine ⟨?_, fun hrel => ?_⟩
      · show s.buf_offset + (m : ℤ) * 2 =
          2 * (((s.buf_len / BYTES_PER_SAMPLE : ℕ) : ℤ) - (s.samp_avail - (m : ℤ)))
        omega
      · show s.buf_offset ≤ s.buf_offset + (m : ℤ) * 2
        omega
    · cases heq
      unfold cursorInv at h ⊢
      refine ⟨?_, fun hrel => absurd hrel (by simp)⟩
      show ((m : ℤ) - s.samp_avail) * 2 =
        2 * (((s.buf_len / BYTES_PER_SAMPLE : ℕ) : ℤ) -
          (((s.buf_len / BYTES_PER_SAMPLE : ℕ) : ℤ) - ((m : ℤ) - s.samp_avail)))
      omega
  · unfold osmosdr_callback
    split_ifs <;> exact h

/-- Witness for claim C7: the invariant holds for the freshly
constructed state and is preserved across a concrete 5-sample
non-crossing pull. -/
theorem claimC7_witness :
    cursorInv (initState 0 0 zmem) ∧
    cursorInv { c7WitState with
      buf_offset := c7WitState.buf_offset + ((5 : ℕ) : ℤ) * 2
      samp_avail := c7WitState.samp_avail - ((5 : ℕ) : ℤ) } := by
  refine ⟨claimC7_theorem.1 0 0 zmem, ?_⟩
  exact (claimC7_theorem.2.2.1 c7WitState 5
    ((List.range 5).map (cplxAt c7WitState c7WitState.buf_head c7WitState.buf_offset)) false
    { c7WitState with
      buf_offset := c7WitState.buf_offset + ((5 : ℕ) : ℤ) * 2
      samp_avail := c7WitState.samp_avail - ((5 : ℕ) : ℤ) }
    (by unfold cursorInv; decide) rfl).1

/-- Counterexample to claim C5 as stated: the callback performs no
length validation at all — an ingestion call of 100 bytes (against
slotBytes 262144) is not dropped: the ring bookkeeping advances
(`used` goes from 0 to 1) and the incoming bytes land in the slot. -/
theorem claimC5_counterexample :
    ((osmosdr_callback c5CexState (wpay 7) 100).1.buf_used = 1) ∧
    ((osmosdr_callback c5CexState (wpay 7) 100).1.slots 0 0 = 7) ∧
    (100 ≠ c5CexState.buf_len) := by
  exact ⟨rfl, rfl, by decide⟩

/-- Claim C5 as amended: after warm-up, an ingestion callback of any
length — matching `slotBytes` or not — is processed identically: the
slot at `(_buf_head + _buf_used) % _buf_num` receives the delivered
bytes and is published (incrementing `used`, or dropping the oldest
slot with an overflow report when the ring is full); no length check
exists and no call is aborted. -/
theorem claimC5_theorem (s : SrcState) (data : ℤ → ℤ) (len : ℕ)
    (hskip : BUF_SKIP ≤ s.skipped) :
    (s.buf_used = s.buf_num →
       (osmosdr_callback s data len).1.buf_head = (s.buf_head + 1) % s.buf_num ∧
       (osmosdr_callback s data len).1.buf_used = s.buf_used ∧
       (osmosdr_callback s data len).2 = true) ∧
    (s.buf_used ≠ s.buf_num →
       (osmosdr_callback s data len).1.buf_head = s.buf_head ∧
       (osmosdr_callback s data len).1.buf_used = s.buf_used + 1 ∧
       (osmosdr_callback s data len).2 = false) ∧
    (∀ j : ℤ, 0 ≤ j → 2 * j + 2 ≤ (len : ℤ) →
       (osmosdr_callback s data len).1.slots
         ((s.buf_head + s.buf_used) % s.buf_num) j = data j) := by
  have h1 : ¬ s.skipped < BUF_SKIP := not_lt.mpr hskip
  refine ⟨fun heq => ?_, fun hne => ?_, fun j hj hlen => ?_⟩
  · simp [osmosdr_callback, h1, heq]
  · simp [osmosdr_callback, h1, hne]
  · by_cases heq : s.buf_used = s.buf_num <;>
      simp [osmosdr_callback, h1, heq, hj, hlen]

/-- Witness for claim C5: a full ring ingests a 100-byte callback all
the same, dropping the oldest slot and reporting overflow. -/
theorem claimC5_witness :
    (osmosdr_callback c5WitState (wpay 9) 100).1.buf_head = (0 + 1) % 15 ∧
    (osmosdr_callback c5WitState (wpay 9) 100).1.buf_used = 15 ∧
    (osmosdr_callback c5WitState (wpay 9) 100).2 = true ∧
    (osmosdr_callback c5WitState (wpay 9) 100).1.slots ((0 + 15) % 15) 0 = 9 := by
  have h := claimC5_theorem c5WitState (wpay 9) 100 (by decide)
  obtain ⟨hfull, -, hsl⟩ := h
  obtain ⟨ha, hb, hc⟩ := hfull rfl
  exact ⟨ha, hb, hc, hsl 0 le_rfl (by decide)⟩

/-! Ring invariant for publish sequences (claim C2). -/

lemma actualNum_pos (n : ℕ) : 0 < actualNum n := by
  unfold actualNum
  split
  · decide
  · omega

lemma mod_cancel_lt {N : ℕ} (x : ℕ) {i j : ℕ} (hi : i < N) (hj : j < N)
    (he : (x + i) % N = (x + j) % N) : i = j := by
  have hm : i ≡ j [MOD N] := Nat.ModEq.add_left_cancel' x he
  calc i = i % N := (Nat.mod_eq_of_lt hi).symm
    _ = j % N := hm
    _ = j := Nat.mod_eq_of_lt hj

lemma ringInv_step {N L : ℕ} (hN : 0 < N) (s : SrcState) (ps : List (ℤ → ℤ))
    (p : ℤ → ℤ) (h : RingInv N L ps s) :
    RingInv N L (ps ++ [p]) (osmosdr_callback s p s.buf_len).1 := by
  obtain ⟨hnum, hlen, hskip, hused, hhead, hcont⟩ := h
  have hns : ¬ s.skipped < BUF_SKIP := by omega
  have hheadlt : s.buf_head < N := by rw [hhead]; exact Nat.mod_lt _ hN
  by_cases hfull : s.buf_used = s.buf_num
  · -- overflow branch: drop the oldest slot
    have hkN : N ≤ ps.length := by
      rw [hused, hnum] at hfull
      omega
    have husedN : s.buf_used = N := by rw [hused]; omega
    have hcb : osmosdr_callback s p s.buf_len =
        ({ s with
            slots := fun q j =>
              if q = (s.buf_head + s.buf_used) % s.buf_num ∧ 0 ≤ j ∧
                  2 * j + 2 ≤ ((s.buf_len : ℕ) : ℤ) then p j
              else s.slots q j
            buf_head := (s.buf_head + 1) % s.buf_num }, true) := by
      simp only [osmosdr_callback]
      rw [if_neg hns, if_pos hfull]
    rw [hcb]
    have htail : (s.buf_head + s.buf_used) % s.buf_num = s.buf_head := by
      rw [hnum, husedN, Nat.add_mod_right, Nat.mod_eq_of_lt hheadlt]
    refine ⟨hnum, hlen, hskip, ?_, ?_, ?_⟩
    · show s.buf_used = min (ps ++ [p]).length N
      rw [husedN, List.length_append]
      simp only [List.length_cons, List.length_nil]
      omega
    · show (s.buf_head + 1) % s.buf_num = ((ps ++ [p]).length - s.buf_used) % N
      rw [hnum, hhead, husedN, List.length_append]
      simp only [List.length_cons, List.length_nil]
      rw [Nat.mod_add_mod]
      congr 1
      omega
    · intro i hi j hj hjl
      have hi' : i < s.buf_used := hi
      have hiN : i < N := by omega
      dsimp only
      have hidx0 : ((s.buf_head + 1) % s.buf_num + i) % N = (s.buf_head + 1 + i) % N := by
        rw [hnum, Nat.mod_add_mod]
      by_cases hlast : i = N - 1
      · have hidx : (s.buf_head + 1 + i) % N = s.buf_head := by
          have hstep : s.buf_head + 1 + i = s.buf_head + N := by omega
          rw [hstep, Nat.add_mod_right, Nat.mod_eq_of_lt hheadlt]
        rw [if_pos ⟨by rw [hidx0, hidx, htail], hj, by rw [hlen]; exact hjl⟩]
        have hIdxEq : (ps ++ [p]).length - s.buf_used + i = ps.length := by
          rw [List.length_append]
          simp only [List.length_cons, List.length_nil]
          omega
        rw [hIdxEq, List.getD_append_right ps [p] _ _ (le_refl _), Nat.sub_self]
        rfl
      · have hi1 : i + 1 < N := by omega
        have hidx : (s.buf_head + 1 + i) % N = (s.buf_head + (i + 1)) % N := by
          congr 1
          omega
        have hne : (s.buf_head + (i + 1)) % N ≠ s.buf_head := by
          intro hEq
          have hzero : (s.buf_head + 0) % N = s.buf_head := by
            simp [Nat.mod_eq_of_lt hheadlt]
          have hEq2 : (s.buf_head + (i + 1)) % N = (s.buf_head + 0) % N :=
            hEq.trans hzero.symm
          have := mod_cancel_lt s.buf_head hi1 hN hEq2
          omega
        rw [if_neg ?hcnd]
        case hcnd =>
          rintro ⟨hEq, -, -⟩
          rw [htail, hidx0, hidx] at hEq
          exact hne hEq
        have hc := hcont (i + 1) (by omega) j hj hjl
        rw [hidx0, hidx, hc]
        have hlt : ps.length - s.buf_used + (i + 1) < ps.length := by omega
        have hIdxEq : (ps ++ [p]).length - s.buf_used + i =
            ps.length - s.buf_used + (i + 1) := by
          rw [List.length_append]
          simp only [List.length_cons, List.length_nil]
          omega
        rw [hIdxEq, List.getD_append ps [p] _ _ hlt]
  · -- normal publish branch
    have hkN : ps.length < N := by
      rw [hused, hnum] at hfull
      omega
    have husedk : s.buf_used = ps.length := by rw [hused]; omega
    have hhead0 : s.buf_head = 0 := by
      have hz : ps.length - min ps.length N = 0 := by omega
      rw [hhead, hused] at *
      rw [hz, Nat.zero_mod]
    have hcb : osmosdr_callback s p s.buf_len =
        ({ s with
            slots := fun q j =>
              if q = (s.buf_head + s.buf_used) % s.buf_num ∧ 0 ≤ j ∧
                  2 * j + 2 ≤ ((s.buf_len : ℕ) : ℤ) then p j
              else s.slots q j
            buf_used := s.buf_used + 1 }, false) := by
      simp only [osmosdr_callback]
      rw [if_neg hns, if_neg hfull]
    rw [hcb]
    have htail : (s.buf_head + s.buf_used) % s.buf_num = ps.length := by
      rw [hnum, hhead0, husedk, Nat.zero_add, Nat.mod_eq_of_lt hkN]
    refine ⟨hnum, hlen, hskip, ?_, ?_, ?_⟩
    · show s.buf_used + 1 = min (ps ++ [p]).length N
      rw [husedk, List.length_append]
      simp only [List.length_cons, List.length_nil]
      omega
    · show s.buf_head = ((ps ++ [p]).length - (s.buf_used + 1)) % N
      rw [hhead0, husedk, List.length_append]
      simp only [List.length_cons, List.length_nil]
      have hz : ps.length + (0 + 1) - (ps.length + 1) = 0 := by omega
      rw [hz, Nat.zero_mod]
    · intro i hi j hj hjl
      have hi' : i < s.buf_used + 1 := hi
      have hiN : i < N := by omega
      dsimp only
      have hidx : (s.buf_head + i) % N = i := by
        rw [hhead0, Nat.zero_add, Nat.mod_eq_of_lt hiN]
      by_cases hik : i = ps.length
      · rw [if_pos ⟨by rw [hidx, htail, hik], hj, by rw [hlen]; exact hjl⟩]
        have hIdxEq : (ps ++ [p]).length - (s.buf_used + 1) + i = ps.length := by
          rw [List.length_append]
          simp only [List.length_cons, List.length_nil]
          omega
        rw [hIdxEq, List.getD_append_right ps [p] _ _ (le_refl _), Nat.sub_self]
        rfl
      · have hiK : i < ps.length := by omega
        rw [if_neg ?hcnd2]
        case hcnd2 =>
          rintro ⟨hEq, -, -⟩
          rw [hidx, htail] at hEq
          exact hik hEq
        have hc := hcont i (by omega) j hj hjl
        rw [hc]
        have h1 : ps.length - s.buf_used + i = i := by omega
        have h2 : (ps ++ [p]).length - (s.buf_used + 1) + i = i := by
          rw [List.length_append]
          simp only [List.length_cons, List.length_nil]
          omega
        rw [h1, h2, List.getD_append ps [p] _ _ hiK]

lemma ringInv_nil (n l : ℕ) (mem : ℕ → ℤ → ℤ) :
    RingInv (actualNum n) (actualLen l) [] (readyState n l mem) := by
  refine ⟨rfl, rfl, rfl, ?_, ?_, ?_⟩
  · show (0 : ℕ) = min (List.length ([] : List (ℤ → ℤ))) (actualNum n)
    simp
  · show (0 : ℕ) = (List.length ([] : List (ℤ → ℤ)) - 0) % actualNum n
    simp
  · intro i hi
    exact absurd hi (Nat.not_lt_zero i)

lemma ringInv_all (n l : ℕ) (mem : ℕ → ℤ → ℤ) (ps : List (ℤ → ℤ)) :
    RingInv (actualNum n) (actualLen l) ps (pubSeq (readyState n l mem) ps) := by
  induction ps using List.reverseRecOn with
  | nil => exact ringInv_nil n l mem
  | append_singleton qs q ih =>
    have hfold : pubSeq (readyState n l mem) (qs ++ [q]) =
        (osmosdr_callback (pubSeq (readyState n l mem) qs) q
          (pubSeq (readyState n l mem) qs).buf_len).1 := by
      unfold pubSeq
      rw [List.foldl_append]
      rfl
    rw [hfold]
    exact ringInv_step (actualNum_pos n) (pubSeq (readyState n l mem) qs) qs q ih

/-- Claim C2: for every publish sequence from the empty post-warm-up
ring, `used` never exceeds the slot count (it equals
`min published slotCount`), `head` is the slot holding the oldest
still-retained payload — and that slot (like every retained slot, in
ring order) still holds exactly the payload published into it; and
each single publish increments `used` when the ring has room,
otherwise advances `head` by one modulo the slot count, keeps `used`,
and reports an overflow event. -/
theorem claimC2_theorem (n l : ℕ) (mem : ℕ → ℤ → ℤ) (ps : List (ℤ → ℤ)) :
    ((pubSeq (readyState n l mem) ps).buf_used ≤ actualNum n ∧
     (pubSeq (readyState n l mem) ps).buf_used = min ps.length (actualNum n) ∧
     (pubSeq (readyState n l mem) ps).buf_head =
       (ps.length - (pubSeq (readyState n l mem) ps).buf_used) % actualNum n ∧
     (∀ i < (pubSeq (readyState n l mem) ps).buf_used, ∀ j : ℤ, 0 ≤ j →
        2 * j + 2 ≤ ((actualLen l : ℕ) : ℤ) →
        (pubSeq (readyState n l mem) ps).slots
            (((pubSeq (readyState n l mem) ps).buf_head + i) % actualNum n) j =
          ps.getD (ps.length - (pubSeq (readyState n l mem) ps).buf_used + i)
            (fun _ => 0) j)) ∧
    (∀ (s : SrcState) (p : ℤ → ℤ), BUF_SKIP ≤ s.skipped →
      (s.buf_used < s.buf_num →
        (osmosdr_callback s p s.buf_len).1.buf_used = s.buf_used + 1 ∧
        (osmosdr_callback s p s.buf_len).1.buf_head = s.buf_head ∧
        (osmosdr_callback s p s.buf_len).2 = false) ∧
      (s.buf_used = s.buf_num →
        (osmosdr_callback s p s.buf_len).1.buf_head = (s.buf_head + 1) % s.buf_num ∧
        (osmosdr_callback s p s.buf_len).1.buf_used = s.buf_used ∧
        (osmosdr_callback s p s.buf_len).2 = true)) := by
  constructor
  · obtain ⟨-, -, -, hused, hhead, hcont⟩ := ringInv_all n l mem ps
    refine ⟨by omega, hused, by rw [hhead], hcont⟩
  · intro s p hskip
    have h1 : ¬ s.skipped < BUF_SKIP := not_lt.mpr hskip
    constructor
    · intro hlt
      have h2 : ¬ s.buf_used = s.buf_num := Nat.ne_of_lt hlt
      refine ⟨?_, ?_, ?_⟩ <;> simp [osmosdr_callback, h1, h2]
    · intro heq
      refine ⟨?_, ?_, ?_⟩ <;> simp [osmosdr_callback, h1, heq]

/-- Witness for claim C2: a 3-slot ring receiving four publishes drops
the oldest payload; `used` saturates at 3, `head` moves to slot 1, and
the slot at `head` holds the second payload (the oldest retained). -/
theorem claimC2_witness :
    (pubSeq (readyState 3 512 zmem) c2ps).buf_used = 3 ∧
    (pubSeq (readyState 3 512 zmem) c2ps).buf_head = 1 ∧
    (pubSeq (readyState 3 512 zmem) c2ps).slots 1 0 = 6 := by
  obtain ⟨-, hused, hhead, hcont⟩ := (claimC2_theorem 3 512 zmem c2ps).1
  have hu : (pubSeq (readyState 3 512 zmem) c2ps).buf_used = 3 := by
    rw [hused]
    decide
  have hh : (pubSeq (readyState 3 512 zmem) c2ps).buf_head = 1 := by
    rw [hhead, hu]
    decide
  refine ⟨hu, hh, ?_⟩
  have hc := hcont 0 (by omega) 0 le_rfl (by decide)
  rw [hu, hh] at hc
  have h1 : ((1 : ℕ) + 0) % actualNum 3 = 1 := by decide
  have h2 : c2ps.length - 3 + 0 = 1 := by decide
  rw [h1, h2] at hc
  rw [hc]
  rfl
